import Mathlib

/-!
Verification of the column-concatenation core of the spreadsheet-processing
service: the `Result` wrapper (src/utils/result.py) and the private
`__concatenate_columns` routine of `ExcelProcessor`
(src/src/service/excel_processor.py), shallowly embedded over an explicit
cell model.
-/

namespace ExcelProc

/-- A spreadsheet cell value as it reaches the concatenation core: text,
a number, or the null/missing marker (Python `None` / pandas `NaN`). -/
inductive Cell where
  | str (s : String)
  | num (n : Int)
  | null
deriving DecidableEq

/-- Python `str()` applied to a cell value, as used by
`delimiter.join(map(str, values_to_concatenate))`.  The null case never
reaches the join (the null check runs first); Python would render it
as `"None"`. -/
def Cell.pyStr : Cell → String
  | .str s => s
  | .num n => toString n
  | .null => "None"

/-- The `Result` wrapper of src/utils/result.py: a plain record with a
success flag and two independently-optional fields, exactly as the Python
class stores them. -/
structure Result (α : Type) where
  success : Bool
  data : Option α
  error : Option String
deriving DecidableEq

/-- `Result.ok(data)`: success with a payload and no error. -/
def Result.ok {α : Type} (d : α) : Result α := ⟨true, some d, none⟩

/-- `Result.fail(error)`: failure with a message and no payload. -/
def Result.fail {α : Type} (e : String) : Result α := ⟨false, none, some e⟩

/-- Python `list.index`: position of the first occurrence of `c` in `l`.
The routine only calls it on elements already validated to be present. -/
def pyIndex (l : List Cell) (c : Cell) : Nat :=
  match l with
  | [] => 0
  | h :: rest => if h = c then 0 else pyIndex rest c + 1

/-- The validation loop of `__concatenate_columns`: scan the requested
names in order and report the first one that is not in the header row. -/
def findMissing (headers : List Cell) : List String → Option String
  | [] => none
  | c :: rest => if Cell.str c ∈ headers then findMissing headers rest else some c

/-- `column_indices = [headers.index(column) for column in column_names]`. -/
def resolvedIndices (headers : List Cell) (columnNames : List String) : List Nat :=
  columnNames.map fun c => pyIndex headers (Cell.str c)

/-- The output row built for one accepted input row: the cells whose index
was not resolved, in order, then the concatenated value
(`new_row = [val for i, val in enumerate(row) if i not in column_indices]`
followed by `new_row.append(concatenated_value)`). -/
def rowOut (ci : List Nat) (row : List Cell) : List Cell :=
  ((row.enum.filter fun p => decide (p.1 ∉ ci)).map Prod.snd) ++
    [Cell.str (String.intercalate " "
      ((ci.map fun idx => row.getD idx Cell.null).map Cell.pyStr))]

/-- The per-row body of the loop in `__concatenate_columns`: width check
(`any(idx >= len(row) ...)`), then null check
(`any(value is None or pd.isna(value) ...)`), then row assembly. -/
def processRow (ci : List Nat) (row : List Cell) : Except String (List Cell) :=
  if ci.any fun idx => decide (row.length ≤ idx) then
    Except.error "Row has inconsistent number of columns"
  else if (ci.map fun idx => row.getD idx Cell.null).any fun v => decide (v = Cell.null) then
    Except.error "Row contains null values in columns to concatenate"
  else
    Except.ok (rowOut ci row)

/-- The row loop of `__concatenate_columns`: process data rows in order,
hard-stopping at the first failing row. -/
def processRows (ci : List Nat) : List (List Cell) → Except String (List (List Cell))
  | [] => Except.ok []
  | row :: rest =>
    match processRow ci row with
    | Except.error e => Except.error e
    | Except.ok newRow =>
      match processRows ci rest with
      | Except.error e => Except.error e
      | Except.ok newRows => Except.ok (newRow :: newRows)

/-- `ExcelProcessor.__concatenate_columns(data, column_names)`: sufficiency
check (`not data or len(data) < 2`), column-existence validation, index
resolution, header rebuild
(`new_headers = [h for i, h in enumerate(headers) if i not in column_indices]`
plus `"Concatenated"`), then the row loop. -/
def concatenateColumns (data : List (List Cell)) (columnNames : List String) :
    Result (List (List Cell)) :=
  match data with
  | [] => Result.fail "No data to process"
  | [_] => Result.fail "No data to process"
  | headers :: rows =>
    match findMissing headers columnNames with
    | some c => Result.fail ("Column '" ++ c ++ "' not found in the data")
    | none =>
      let ci := resolvedIndices headers columnNames
      let newHeaders :=
        ((headers.enum.filter fun p => decide (p.1 ∉ ci)).map Prod.snd) ++
          [Cell.str "Concatenated"]
      match processRows ci rows with
      | Except.error e => Result.fail e
      | Except.ok newRows => Result.ok (newHeaders :: newRows)

/-- A data row the loop accepts: every resolved index is in bounds and no
selected cell is null. -/
def goodRow (ci : List Nat) (row : List Cell) : Prop :=
  (∀ i ∈ ci, i < row.length) ∧ ∀ i ∈ ci, row.getD i Cell.null ≠ Cell.null

instance (ci : List Nat) (row : List Cell) : Decidable (goodRow ci row) :=
  decidable_of_iff
    ((∀ i ∈ ci, i < row.length) ∧ ∀ i ∈ ci, row.getD i Cell.null ≠ Cell.null) Iff.rfl

/-- Specification-side description of row assembly: walk the row with its
positional index, keeping exactly the cells whose index was not resolved,
in their original relative order and unchanged. -/
def keepUnselected (ci : List Nat) : Nat → List Cell → List Cell
  | _, [] => []
  | j, v :: rest =>
    if j ∈ ci then keepUnselected ci (j + 1) rest
    else v :: keepUnselected ci (j + 1) rest

theorem pyIndex_lt_length {l : List Cell} {c : Cell} : c ∈ l → pyIndex l c < l.length := by
  induction l with
  | nil => intro h; cases h
  | cons x xs ih =>
    intro h
    by_cases hx : x = c
    · simp [pyIndex, hx]
    · rcases List.mem_cons.mp h with h | h
      · exact absurd h.symm hx
      · simpa [pyIndex, hx] using ih h

theorem getD_pyIndex {l : List Cell} {c : Cell} (d : Cell) : c ∈ l →
    l.getD (pyIndex l c) d = c := by
  induction l with
  | nil => intro h; cases h
  | cons x xs ih =>
    intro h
    by_cases hx : x = c
    · simp [pyIndex, hx]
    · rcases List.mem_cons.mp h with h | h
      · exact absurd h.symm hx
      · simpa [pyIndex, hx, List.getD_cons_succ] using ih h

theorem findMissing_eq_none {headers : List Cell} {names : List String} :
    findMissing headers names = none ↔ ∀ c ∈ names, Cell.str c ∈ headers := by
  induction names with
  | nil => simp [findMissing]
  | cons c rest ih =>
    by_cases hc : Cell.str c ∈ headers
    · simp [findMissing, hc, ih]
    · simp [findMissing, hc]

theorem findMissing_first {headers : List Cell} {pre post : List String} {m : String}
    (hpre : ∀ c ∈ pre, Cell.str c ∈ headers) (hm : Cell.str m ∉ headers) :
    findMissing headers (pre ++ m :: post) = some m := by
  induction pre with
  | nil => simp [findMissing, hm]
  | cons c rest ih =>
    have hc : Cell.str c ∈ headers := hpre c (by simp)
    simpa [findMissing, hc] using ih fun x hx => hpre x (by simp [hx])

theorem processRow_ok {ci : List Nat} {row : List Cell} (h : goodRow ci row) :
    processRow ci row = Except.ok (rowOut ci row) := by
  obtain ⟨h1, h2⟩ := h
  have w1 : (ci.any fun idx => decide (row.length ≤ idx)) = false := by
    simp only [List.any_eq_false, decide_eq_true_eq]
    intro i hi
    simpa using Nat.not_le.mpr (h1 i hi)
  have w2 : ((ci.map fun idx => row.getD idx Cell.null).any fun v =>
      decide (v = Cell.null)) = false := by
    rw [List.any_eq_false]
    intro v hv
    rw [List.mem_map] at hv
    obtain ⟨i, hi, rfl⟩ := hv
    simp only [decide_eq_true_eq]
    exact h2 i hi
  unfold processRow
  rw [if_neg (by rw [w1]; exact Bool.false_ne_true),
    if_neg (by rw [w2]; exact Bool.false_ne_true)]

theorem processRow_ok_inv {ci : List Nat} {row v : List Cell}
    (h : processRow ci row = Except.ok v) : goodRow ci row ∧ v = rowOut ci row := by
  unfold processRow at h
  split at h
  · cases h
  · split at h
    · cases h
    · rename_i w1 w2
      have hv := Except.ok.inj h
      refine ⟨⟨?_, ?_⟩, hv.symm⟩
      · intro i hi
        by_contra hle
        exact w1 (List.any_eq_true.mpr ⟨i, hi, by simpa using Nat.le_of_not_lt hle⟩)
      · intro i hi hnull
        exact w2 (List.any_eq_true.mpr
          ⟨row.getD i Cell.null, List.mem_map.mpr ⟨i, hi, rfl⟩, by simpa using hnull⟩)

theorem processRows_eq_ok {ci : List Nat} {rows l : List (List Cell)} :
    processRows ci rows = Except.ok l ↔
      (∀ r ∈ rows, goodRow ci r) ∧ l = rows.map (rowOut ci) := by
  induction rows generalizing l with
  | nil =>
    constructor
    · intro h
      simp [processRows] at h
      subst h
      simp
    · rintro ⟨-, rfl⟩
      simp [processRows]
  | cons r rest ih =>
    constructor
    · intro h
      rcases hr : processRow ci r with e | v
      · simp [processRows, hr] at h
      · rcases hrest : processRows ci rest with e | vs
        · simp [processRows, hr, hrest] at h
        · obtain ⟨hg, hv⟩ := processRow_ok_inv hr
          obtain ⟨hgs, hvs⟩ := ih.mp hrest
          simp only [processRows, hr, hrest] at h
          obtain rfl := Except.ok.inj h
          refine ⟨?_, by simp [hv, hvs]⟩
          intro x hx
          rcases List.mem_cons.mp hx with rfl | hx
          · exact hg
          · exact hgs x hx
    · rintro ⟨hg, rfl⟩
      have hr : processRow ci r = Except.ok (rowOut ci r) := processRow_ok (hg r (by simp))
      have hrest : processRows ci rest = Except.ok (rest.map (rowOut ci)) :=
        ih.mpr ⟨fun x hx => hg x (by simp [hx]), rfl⟩
      simp [processRows, hr, hrest]

theorem processRows_length {ci : List Nat} {rows l : List (List Cell)}
    (h : processRows ci rows = Except.ok l) : l.length = rows.length := by
  obtain ⟨-, rfl⟩ := processRows_eq_ok.mp h
  simp

theorem enumFrom_filter_eq_keepUnselected (ci : List Nat) :
    ∀ (s : Nat) (l : List Cell),
      ((List.enumFrom s l).filter fun p => decide (p.1 ∉ ci)).map Prod.snd =
        keepUnselected ci s l := by
  intro s l
  induction l generalizing s with
  | nil => rfl
  | cons v rest ih =>
    by_cases hs : s ∈ ci
    · simpa [List.enumFrom, keepUnselected, hs] using ih (s + 1)
    · simpa [List.enumFrom, keepUnselected, hs] using ih (s + 1)

theorem enum_filter_eq_keepUnselected (ci : List Nat) (l : List Cell) :
    ((l.enum.filter fun p => decide (p.1 ∉ ci)).map Prod.snd) = keepUnselected ci 0 l :=
  enumFrom_filter_eq_keepUnselected ci 0 l

theorem keepUnselected_length (ci : List Nat) :
    ∀ (s : Nat) (l : List Cell),
      (keepUnselected ci s l).length +
        ((List.range' s l.length).filter fun j => decide (j ∈ ci)).length = l.length := by
  intro s l
  induction l generalizing s with
  | nil => rfl
  | cons v rest ih =>
    have hr : List.range' s (rest.length + 1) = s :: List.range' (s + 1) rest.length :=
      List.range'_succ s rest.length 1
    have h := ih (s + 1)
    by_cases hs : s ∈ ci
    · rw [keepUnselected, if_pos hs]
      simp only [List.length_cons]
      rw [hr, List.filter_cons, if_pos (by simpa using hs)]
      simp only [List.length_cons]
      omega
    · rw [keepUnselected, if_neg hs]
      simp only [List.length_cons]
      rw [hr, List.filter_cons, if_neg (by simpa using hs)]
      omega

theorem mem_keepUnselected {ci : List Nat} {v : Cell} :
    ∀ {s : Nat} {l : List Cell}, v ∈ keepUnselected ci s l →
      ∃ k, k < l.length ∧ l.getD k Cell.null = v ∧ (s + k) ∉ ci := by
  intro s l
  induction l generalizing s with
  | nil => intro h; cases h
  | cons x rest ih =>
    intro h
    by_cases hs : s ∈ ci
    · rw [keepUnselected, if_pos hs] at h
      obtain ⟨k, hk, hget, hnot⟩ := ih h
      refine ⟨k + 1, by simp only [List.length_cons]; omega,
        by simpa [List.getD_cons_succ] using hget, ?_⟩
      have he : s + (k + 1) = s + 1 + k := by omega
      rw [he]; exact hnot
    · rw [keepUnselected, if_neg hs] at h
      rcases List.mem_cons.mp h with h | h
      · exact ⟨0, by simp, by simp [h.symm], by simpa using hs⟩
      · obtain ⟨k, hk, hget, hnot⟩ := ih h
        refine ⟨k + 1, by simp only [List.length_cons]; omega,
          by simpa [List.getD_cons_succ] using hget, ?_⟩
        have he : s + (k + 1) = s + 1 + k := by omega
        rw [he]; exact hnot

theorem range_filter_mem_length {ci : List Nat} {n : Nat} (h : ∀ i ∈ ci, i < n) :
    ((List.range n).filter fun j => decide (j ∈ ci)).length = ci.toFinset.card := by
  have hnd : ((List.range n).filter fun j => decide (j ∈ ci)).Nodup :=
    (List.nodup_range n).filter _
  rw [← List.toFinset_card_of_nodup hnd]
  congr 1
  apply Finset.ext
  intro i
  simp only [List.mem_toFinset, List.mem_filter, List.mem_range, decide_eq_true_eq]
  exact ⟨fun hx => hx.2, fun hx => ⟨h i hx, hx⟩⟩

theorem resolvedIndices_lt {headers : List Cell} {names : List String}
    (hex : ∀ c ∈ names, Cell.str c ∈ headers) :
    ∀ i ∈ resolvedIndices headers names, i < headers.length := by
  intro i hi
  rw [resolvedIndices, List.mem_map] at hi
  obtain ⟨c, hc, rfl⟩ := hi
  exact pyIndex_lt_length (hex c hc)

theorem resolvedIndices_toFinset_card {headers : List Cell} {names : List String}
    (hex : ∀ c ∈ names, Cell.str c ∈ headers) :
    (resolvedIndices headers names).toFinset.card = names.toFinset.card := by
  have himg : (resolvedIndices headers names).toFinset =
      names.toFinset.image fun c => pyIndex headers (Cell.str c) := by
    apply Finset.ext
    intro i
    simp [resolvedIndices, List.mem_toFinset, Finset.mem_image]
  rw [himg]
  apply Finset.card_image_of_injOn
  intro c1 h1 c2 h2 heq
  rw [Finset.mem_coe, List.mem_toFinset] at h1 h2
  have e1 : headers.getD (pyIndex headers (Cell.str c1)) Cell.null = Cell.str c1 :=
    getD_pyIndex Cell.null (hex c1 h1)
  have e2 : headers.getD (pyIndex headers (Cell.str c2)) Cell.null = Cell.str c2 :=
    getD_pyIndex Cell.null (hex c2 h2)
  have heq' : pyIndex headers (Cell.str c1) = pyIndex headers (Cell.str c2) := heq
  rw [heq', e2] at e1
  exact (Cell.str.injEq c2 c1).mp e1 |>.symm

theorem concat_ok_inv {headers : List Cell} {rows : List (List Cell)} {names : List String}
    {out : List (List Cell)}
    (h : concatenateColumns (headers :: rows) names = Result.ok out) :
    rows ≠ [] ∧ (∀ c ∈ names, Cell.str c ∈ headers) ∧
      (∀ r ∈ rows, goodRow (resolvedIndices headers names) r) ∧
      out = (keepUnselected (resolvedIndices headers names) 0 headers ++
          [Cell.str "Concatenated"]) ::
        rows.map (rowOut (resolvedIndices headers names)) := by
  rcases rows with _ | ⟨r, rs⟩
  · simp [concatenateColumns, Result.fail, Result.ok] at h
  · rcases hfm : findMissing headers names with _ | c
    · rcases hpr : processRows (resolvedIndices headers names) (r :: rs) with e | l
      · simp [concatenateColumns, hfm, hpr, Result.fail, Result.ok] at h
      · obtain ⟨hg, hl⟩ := processRows_eq_ok.mp hpr
        simp only [concatenateColumns, hfm, hpr, Result.ok, Result.mk.injEq,
          Option.some.injEq] at h
        refine ⟨by simp, findMissing_eq_none.mp hfm, hg, ?_⟩
        rw [← h.2.1, hl, enum_filter_eq_keepUnselected]
    · simp [concatenateColumns, hfm, Result.fail, Result.ok] at h

theorem concat_ok_of_good {headers : List Cell} {r : List Cell} {rs : List (List Cell)}
    {names : List String}
    (hex : ∀ c ∈ names, Cell.str c ∈ headers)
    (hgood : ∀ row ∈ r :: rs, goodRow (resolvedIndices headers names) row) :
    concatenateColumns (headers :: r :: rs) names =
      Result.ok ((keepUnselected (resolvedIndices headers names) 0 headers ++
          [Cell.str "Concatenated"]) ::
        (r :: rs).map (rowOut (resolvedIndices headers names))) := by
  have hfm : findMissing headers names = none := findMissing_eq_none.mpr hex
  have hpr : processRows (resolvedIndices headers names) (r :: rs) =
      Except.ok ((r :: rs).map (rowOut (resolvedIndices headers names))) :=
    processRows_eq_ok.mpr ⟨hgood, rfl⟩
  simp only [concatenateColumns, hfm, hpr]
  rw [enum_filter_eq_keepUnselected]

theorem processRows_first_bad {ci : List Nat} {pre post : List (List Cell)}
    {bad : List Cell} {e : String}
    (hpre : ∀ r ∈ pre, goodRow ci r) (hbad : processRow ci bad = Except.error e) :
    processRows ci (pre ++ bad :: post) = Except.error e := by
  induction pre with
  | nil => simp [processRows, hbad]
  | cons r rest ih =>
    have hr : processRow ci r = Except.ok (rowOut ci r) := processRow_ok (hpre r (by simp))
    have hrest := ih fun x hx => hpre x (by simp [hx])
    simp [processRows, hr, hrest]

theorem processRow_error {ci : List Nat} {row : List Cell} (h : ¬ goodRow ci row) :
    processRow ci row = Except.error
      (if ∃ i ∈ ci, row.length ≤ i then "Row has inconsistent number of columns"
        else "Row contains null values in columns to concatenate") := by
  by_cases hw : ∃ i ∈ ci, row.length ≤ i
  · rw [if_pos hw]
    obtain ⟨i, hi, hle⟩ := hw
    have : (ci.any fun idx => decide (row.length ≤ idx)) = true :=
      List.any_eq_true.mpr ⟨i, hi, by simpa using hle⟩
    rw [processRow, if_pos this]
  · rw [if_neg hw]
    have hb : ∀ i ∈ ci, i < row.length := by
      intro i hi
      by_contra hc
      exact hw ⟨i, hi, Nat.le_of_not_lt hc⟩
    have hn : ∃ i ∈ ci, row.getD i Cell.null = Cell.null := by
      by_contra hc
      push_neg at hc
      exact h ⟨hb, hc⟩
    obtain ⟨i, hi, hnull⟩ := hn
    have w1 : (ci.any fun idx => decide (row.length ≤ idx)) = false := by
      rw [List.any_eq_false]
      intro j hj
      simpa using Nat.not_le.mpr (hb j hj)
    have w2 : ((ci.map fun idx => row.getD idx Cell.null).any fun v =>
        decide (v = Cell.null)) = true :=
      List.any_eq_true.mpr ⟨row.getD i Cell.null, List.mem_map.mpr ⟨i, hi, rfl⟩,
        by simpa using hnull⟩
    rw [processRow, if_neg (by rw [w1]; exact Bool.false_ne_true), if_pos w2]

theorem newHeaders_length {headers : List Cell} {names : List String}
    (hex : ∀ c ∈ names, Cell.str c ∈ headers) :
    (keepUnselected (resolvedIndices headers names) 0 headers ++
      [Cell.str "Concatenated"]).length = headers.length - names.toFinset.card + 1 := by
  have hk := keepUnselected_length (resolvedIndices headers names) 0 headers
  rw [← List.range_eq_range', range_filter_mem_length (resolvedIndices_lt hex),
    resolvedIndices_toFinset_card hex] at hk
  simp only [List.length_append, List.length_cons, List.length_nil]
  omega

theorem mapRowOut_getD_getLast {headers : List Cell} {names : List String}
    {rows : List (List Cell)} {i : Nat} (hi : i < rows.length) :
    ((rows.map (rowOut (resolvedIndices headers names))).getD i []).getLast? =
      some (Cell.str (String.intercalate " "
        (names.map fun c =>
          ((rows.getD i []).getD (pyIndex headers (Cell.str c)) Cell.null).pyStr))) := by
  have hlen : i < (rows.map (rowOut (resolvedIndices headers names))).length := by
    simpa using hi
  rw [List.getD_eq_getElem _ _ hlen, List.getElem_map, rowOut, List.getLast?_concat]
  have hrow : rows[i] = rows.getD i [] := (List.getD_eq_getElem rows [] hi).symm
  rw [hrow, resolvedIndices, List.map_map, List.map_map]
  rfl

theorem joinSelected_eq {headers : List Cell} {names : List String} (row : List Cell) :
    (((resolvedIndices headers names).map fun idx => row.getD idx Cell.null).map
        Cell.pyStr) =
      names.map fun c => (row.getD (pyIndex headers (Cell.str c)) Cell.null).pyStr := by
  rw [resolvedIndices, List.map_map, List.map_map]
  rfl

theorem keepUnselected_length_sub {ci : List Nat} {l : List Cell}
    (hb : ∀ i ∈ ci, i < l.length) :
    (keepUnselected ci 0 l).length = l.length - ci.toFinset.card := by
  have hk := keepUnselected_length ci 0 l
  rw [← List.range_eq_range', range_filter_mem_length hb] at hk
  omega

theorem mapRowOut_getD_eq {headers : List Cell} {names : List String}
    {rows : List (List Cell)} {i : Nat} (hi : i < rows.length) :
    (rows.map (rowOut (resolvedIndices headers names))).getD i [] =
      keepUnselected (resolvedIndices headers names) 0 (rows.getD i []) ++
        [Cell.str (String.intercalate " "
          (names.map fun c =>
            ((rows.getD i []).getD (pyIndex headers (Cell.str c)) Cell.null).pyStr))] := by
  have hlen : i < (rows.map (rowOut (resolvedIndices headers names))).length := by
    simpa using hi
  rw [List.getD_eq_getElem _ _ hlen, List.getElem_map, rowOut]
  have hrow : rows[i] = rows.getD i [] := (List.getD_eq_getElem rows [] hi).symm
  rw [hrow, enum_filter_eq_keepUnselected, joinSelected_eq]

theorem concat_first_bad {headers : List Cell} {pre post : List (List Cell)}
    {bad : List Cell} {names : List String} {e : String}
    (hfm : findMissing headers names = none)
    (hpr : processRows (resolvedIndices headers names) (pre ++ bad :: post) =
      Except.error e) :
    concatenateColumns (headers :: (pre ++ bad :: post)) names = Result.fail e := by
  rcases pre with _ | ⟨p, ps⟩
  · simp only [List.nil_append] at hpr ⊢
    simp [concatenateColumns, hfm, hpr]
  · simp only [List.cons_append] at hpr ⊢
    simp [concatenateColumns, hfm, hpr]

theorem concat_ok_or_fail (data : List (List Cell)) (names : List String) :
    (∃ d, concatenateColumns data names = Result.ok d) ∨
      ∃ e, concatenateColumns data names = Result.fail e := by
  rcases data with _ | ⟨h, _ | ⟨r, t⟩⟩
  · exact Or.inr ⟨_, rfl⟩
  · exact Or.inr ⟨_, rfl⟩
  · rcases hfm : findMissing h names with _ | c
    · rcases hpr : processRows (resolvedIndices h names) (r :: t) with e | l
      · exact Or.inr ⟨e, by simp [concatenateColumns, hfm, hpr]⟩
      · refine Or.inl ⟨(((h.enum.filter fun p =>
          decide (p.1 ∉ resolvedIndices h names)).map Prod.snd) ++
            [Cell.str "Concatenated"]) :: l, ?_⟩
        simp [concatenateColumns, hfm, hpr]
    · exact Or.inr ⟨"Column '" ++ c ++ "' not found in the data",
        by simp [concatenateColumns, hfm]⟩

/-- C1: the Scenario A table, requesting [Name, City], yields header
[Age, Concatenated] and rows [[30, "John New York"], [25, "Alice London"]]. -/
theorem scenarioA_concatenation :
    concatenateColumns
      [[Cell.str "Name", Cell.str "City", Cell.str "Age"],
       [Cell.str "John", Cell.str "New York", Cell.num 30],
       [Cell.str "Alice", Cell.str "London", Cell.num 25]]
      ["Name", "City"] =
    Result.ok
      [[Cell.str "Age", Cell.str "Concatenated"],
       [Cell.num 30, Cell.str "John New York"],
       [Cell.num 25, Cell.str "Alice London"]] := by
  rfl

/-- C2: for every table with a header and at least one data row and every
non-empty requested column list whose names all occur in the header, with
every resolved index in bounds for every data row and no selected cell
null, the concatenation returns Ok and the output has exactly as many data
rows as the input. -/
theorem validRequestSucceedsPreservingRowCount (headers : List Cell)
    (rows : List (List Cell)) (names : List String)
    (hrows : rows ≠ []) (hnames : names ≠ [])
    (hex : ∀ c ∈ names, Cell.str c ∈ headers)
    (hgood : ∀ row ∈ rows, goodRow (resolvedIndices headers names) row) :
    ∃ nh nrows, concatenateColumns (headers :: rows) names = Result.ok (nh :: nrows) ∧
      nrows.length = rows.length := by
  rcases rows with _ | ⟨r, rs⟩
  · exact absurd rfl hrows
  · exact ⟨_, _, concat_ok_of_good hex hgood, by simp⟩

theorem validRequestSucceedsPreservingRowCount_witness :
    ∃ nh nrows,
      concatenateColumns
        [[Cell.str "A", Cell.str "B"],
         [Cell.num 1, Cell.num 2],
         [Cell.num 3, Cell.num 4]] ["B"] = Result.ok (nh :: nrows) ∧
      nrows.length = 2 := by
  have h := validRequestSucceedsPreservingRowCount [Cell.str "A", Cell.str "B"]
    [[Cell.num 1, Cell.num 2], [Cell.num 3, Cell.num 4]] ["B"]
    (by decide) (by decide) (by decide) (by decide)
  simpa using h

/-- C3: for every successful concatenation and every data row, the new
last cell is the selected cells' string forms joined by one space, in the
order the columns were requested, each value via its natural
stringification. -/
theorem concatValueJoinsInRequestOrder (headers : List Cell) (rows : List (List Cell))
    (names : List String) (out : List (List Cell)) (i : Nat)
    (h : concatenateColumns (headers :: rows) names = Result.ok out)
    (hi : i < rows.length) :
    (out.getD (i + 1) []).getLast? =
      some (Cell.str (String.intercalate " "
        (names.map fun c =>
          ((rows.getD i []).getD (pyIndex headers (Cell.str c)) Cell.null).pyStr))) := by
  obtain ⟨-, -, -, rfl⟩ := concat_ok_inv h
  rw [List.getD_cons_succ]
  exact mapRowOut_getD_getLast hi

theorem concatValueJoinsInRequestOrder_witness :
    (([[Cell.str "Age", Cell.str "Concatenated"],
       [Cell.num 30, Cell.str "New York John"],
       [Cell.num 25, Cell.str "London Alice"]] : List (List Cell)).getD 2 []).getLast? =
      some (Cell.str (String.intercalate " "
        (["City", "Name"].map fun c =>
          (([[Cell.str "John", Cell.str "New York", Cell.num 30],
             [Cell.str "Alice", Cell.str "London", Cell.num 25]].getD 1 []).getD
            (pyIndex [Cell.str "Name", Cell.str "City", Cell.str "Age"] (Cell.str c))
            Cell.null).pyStr))) := by
  exact concatValueJoinsInRequestOrder
    [Cell.str "Name", Cell.str "City", Cell.str "Age"]
    [[Cell.str "John", Cell.str "New York", Cell.num 30],
     [Cell.str "Alice", Cell.str "London", Cell.num 25]]
    ["City", "Name"]
    [[Cell.str "Age", Cell.str "Concatenated"],
     [Cell.num 30, Cell.str "New York John"],
     [Cell.num 25, Cell.str "London Alice"]] 1 (by rfl) (by decide)

/-- C4: for every successful Replace-mode concatenation, the output header
length equals the original header length minus the number of distinct
requested column names plus one. -/
theorem replaceModeHeaderLength (headers : List Cell) (rows : List (List Cell))
    (names : List String) (out : List (List Cell))
    (h : concatenateColumns (headers :: rows) names = Result.ok out) :
    (out.headD []).length = headers.length - names.toFinset.card + 1 := by
  obtain ⟨-, hex, -, rfl⟩ := concat_ok_inv h
  rw [List.headD_cons]
  exact newHeaders_length hex

theorem replaceModeHeaderLength_witness :
    (([[Cell.str "Age", Cell.str "Concatenated"],
       [Cell.num 30, Cell.str "John New York"],
       [Cell.num 25, Cell.str "Alice London"]] : List (List Cell)).headD []).length =
      ([Cell.str "Name", Cell.str "City", Cell.str "Age"] : List Cell).length -
        (["Name", "City"] : List String).toFinset.card + 1 := by
  exact replaceModeHeaderLength
    [Cell.str "Name", Cell.str "City", Cell.str "Age"]
    [[Cell.str "John", Cell.str "New York", Cell.num 30],
     [Cell.str "Alice", Cell.str "London", Cell.num 25]]
    ["Name", "City"]
    [[Cell.str "Age", Cell.str "Concatenated"],
     [Cell.num 30, Cell.str "John New York"],
     [Cell.num 25, Cell.str "Alice London"]] (by rfl)

/-- C5 counterexample: when a requested column is itself named
"Concatenated", re-running the concatenation on the output with the same
request succeeds again instead of failing with ColumnNotFound. -/
theorem rerunSucceedsOnConcatenatedName :
    concatenateColumns
      [[Cell.str "Concatenated", Cell.str "B"], [Cell.str "x", Cell.str "y"]]
      ["Concatenated"] =
      Result.ok [[Cell.str "B", Cell.str "Concatenated"], [Cell.str "y", Cell.str "x"]] ∧
    concatenateColumns
      [[Cell.str "B", Cell.str "Concatenated"], [Cell.str "y", Cell.str "x"]]
      ["Concatenated"] =
      Result.ok [[Cell.str "B", Cell.str "Concatenated"], [Cell.str "y", Cell.str "x"]] :=
  ⟨rfl, rfl⟩

/-- C5 (amended): if the header row has no duplicate entries and the first
requested name is not "Concatenated", re-running the concatenation on the
output of a successful run with the same request fails with ColumnNotFound
citing that first name. -/
theorem rerunFailsWithColumnNotFound (headers : List Cell) (rows : List (List Cell))
    (c0 : String) (rest : List String) (out : List (List Cell))
    (hnodup : headers.Nodup) (hc0 : c0 ≠ "Concatenated")
    (h : concatenateColumns (headers :: rows) (c0 :: rest) = Result.ok out) :
    concatenateColumns out (c0 :: rest) =
      Result.fail ("Column '" ++ c0 ++ "' not found in the data") := by
  obtain ⟨hrows, hex, hgood, rfl⟩ := concat_ok_inv h
  rcases rows with _ | ⟨r, rs⟩
  · exact absurd rfl hrows
  have hmem : Cell.str c0 ∉
      keepUnselected (resolvedIndices headers (c0 :: rest)) 0 headers ++
        [Cell.str "Concatenated"] := by
    intro hmem
    rcases List.mem_append.mp hmem with hm | hm
    · obtain ⟨k, hk, hget, hnot⟩ := mem_keepUnselected hm
      have hc0mem : Cell.str c0 ∈ headers := hex c0 (by simp)
      have hpi : pyIndex headers (Cell.str c0) < headers.length :=
        pyIndex_lt_length hc0mem
      have hgk : headers[k] = Cell.str c0 := by
        rw [← List.getD_eq_getElem headers Cell.null hk]; exact hget
      have hgp : headers[pyIndex headers (Cell.str c0)] = Cell.str c0 := by
        rw [← List.getD_eq_getElem headers Cell.null hpi]
        exact getD_pyIndex Cell.null hc0mem
      have hkp : k = pyIndex headers (Cell.str c0) :=
        (hnodup.getElem_inj_iff).mp (hgk.trans hgp.symm)
      have hin : pyIndex headers (Cell.str c0) ∈ resolvedIndices headers (c0 :: rest) :=
        List.mem_map.mpr ⟨c0, by simp, rfl⟩
      rw [Nat.zero_add] at hnot
      exact hnot (hkp ▸ hin)
    · exact hc0 ((Cell.str.injEq _ _).mp (List.mem_singleton.mp hm))
  have hfm : findMissing
      (keepUnselected (resolvedIndices headers (c0 :: rest)) 0 headers ++
        [Cell.str "Concatenated"]) (c0 :: rest) = some c0 := by
    rw [findMissing, if_neg hmem]
  rw [List.map_cons]
  simp [concatenateColumns, hfm]

theorem rerunFailsWithColumnNotFound_witness :
    concatenateColumns
      [[Cell.str "Age", Cell.str "Concatenated"], [Cell.num 30, Cell.str "John"]]
      ["Name"] = Result.fail "Column 'Name' not found in the data" := by
  exact rerunFailsWithColumnNotFound
    [Cell.str "Name", Cell.str "Age"] [[Cell.str "John", Cell.num 30]]
    "Name" []
    [[Cell.str "Age", Cell.str "Concatenated"], [Cell.num 30, Cell.str "John"]]
    (by decide) (by decide) (by rfl)

/-- C6: for every table with a header and at least one data row and a
request list whose names up to some position all exist but whose name at
that position does not, the concatenation fails with exactly
"Column '{name}' not found in the data" for that first missing name,
regardless of the remaining names and of the data rows. -/
theorem missingColumnFailsWithFirstName (headers : List Cell) (r : List Cell)
    (rs : List (List Cell)) (pre post : List String) (m : String)
    (hpre : ∀ c ∈ pre, Cell.str c ∈ headers) (hm : Cell.str m ∉ headers) :
    concatenateColumns (headers :: r :: rs) (pre ++ m :: post) =
      Result.fail ("Column '" ++ m ++ "' not found in the data") := by
  simp [concatenateColumns, findMissing_first hpre hm]

theorem missingColumnFailsWithFirstName_witness :
    concatenateColumns
      [[Cell.str "Name", Cell.str "City", Cell.str "Age"],
       [Cell.str "John", Cell.str "New York", Cell.num 30],
       [Cell.str "Alice", Cell.str "London", Cell.num 25]]
      ["Name", "Missing", "City", "AlsoMissing"] =
      Result.fail "Column 'Missing' not found in the data" := by
  exact missingColumnFailsWithFirstName
    [Cell.str "Name", Cell.str "City", Cell.str "Age"]
    [Cell.str "John", Cell.str "New York", Cell.num 30]
    [[Cell.str "Alice", Cell.str "London", Cell.num 25]]
    ["Name"] ["City", "AlsoMissing"] "Missing" (by decide) (by decide)

/-- C7: with all requested names valid, row processing stops at the first
offending data row: it fails with "Row has inconsistent number of columns"
when some resolved index is out of bounds for that row, and otherwise
(some selected cell null) with "Row contains null values in columns to
concatenate"; the width check precedes the null check, rows before the
offending one may be arbitrary valid rows, rows after it are never reached,
and the failed Result carries no data payload. -/
theorem firstOffendingRowFails (headers : List Cell) (pre post : List (List Cell))
    (bad : List Cell) (names : List String)
    (hex : ∀ c ∈ names, Cell.str c ∈ headers)
    (hpre : ∀ row ∈ pre, goodRow (resolvedIndices headers names) row)
    (hbad : ¬ goodRow (resolvedIndices headers names) bad) :
    concatenateColumns (headers :: (pre ++ bad :: post)) names =
      Result.fail (if ∃ i ∈ resolvedIndices headers names, bad.length ≤ i
        then "Row has inconsistent number of columns"
        else "Row contains null values in columns to concatenate") ∧
    (concatenateColumns (headers :: (pre ++ bad :: post)) names).data = none := by
  have hmain : concatenateColumns (headers :: (pre ++ bad :: post)) names =
      Result.fail (if ∃ i ∈ resolvedIndices headers names, bad.length ≤ i
        then "Row has inconsistent number of columns"
        else "Row contains null values in columns to concatenate") :=
    concat_first_bad (findMissing_eq_none.mpr hex)
      (processRows_first_bad hpre (processRow_error hbad))
  exact ⟨hmain, by rw [hmain]; rfl⟩

theorem firstOffendingRowFails_witness :
    (concatenateColumns
      [[Cell.str "A", Cell.str "B"],
       [Cell.num 1, Cell.num 2],
       [Cell.num 3],
       [Cell.null, Cell.num 4]] ["B"] =
      Result.fail "Row has inconsistent number of columns") ∧
    (concatenateColumns
      [[Cell.str "A", Cell.str "B"],
       [Cell.num 1, Cell.num 2],
       [Cell.num 3],
       [Cell.null, Cell.num 4]] ["B"]).data = none := by
  have h := firstOffendingRowFails [Cell.str "A", Cell.str "B"]
    [[Cell.num 1, Cell.num 2]] [[Cell.null, Cell.num 4]] [Cell.num 3] ["B"]
    (by decide) (by decide) (by decide)
  rw [if_pos (by decide)] at h
  exact h

/-- C8: a Result built by Result.ok has success true and no error message;
a Result built by Result.fail has success false and no data payload; and
every Result the concatenation core returns has exactly one variant
populated — never both, never neither. -/
theorem resultExactlyOneVariant :
    (∀ (d : List (List Cell)), (Result.ok d).success = true ∧ (Result.ok d).error = none) ∧
    (∀ (e : String), (Result.fail e : Result (List (List Cell))).success = false ∧
      (Result.fail e : Result (List (List Cell))).data = none) ∧
    ∀ (data : List (List Cell)) (names : List String),
      ((concatenateColumns data names).success = true ∧
        (concatenateColumns data names).error = none ∧
        (concatenateColumns data names).data ≠ none) ∨
      ((concatenateColumns data names).success = false ∧
        (concatenateColumns data names).data = none ∧
        (concatenateColumns data names).error ≠ none) := by
  refine ⟨fun d => ⟨rfl, rfl⟩, fun e => ⟨rfl, rfl⟩, fun data names => ?_⟩
  rcases concat_ok_or_fail data names with ⟨d, hd⟩ | ⟨e, he⟩
  · rw [hd]
    exact Or.inl ⟨rfl, rfl, by simp [Result.ok]⟩
  · rw [he]
    exact Or.inr ⟨rfl, rfl, by simp [Result.fail]⟩

/-- C9: when the requested list repeats an existing column name (and the
other success preconditions hold), the concatenation still succeeds: the
concatenated string contains the cell's value once per occurrence of the
name in the request, while the source column is removed from the output
header and rows only once — each output data row is exactly the row's
unselected cells (each selected position dropped a single time) followed
by the joined value, so header and row lengths both shrink by the number
of distinct requested names. -/
theorem duplicateRequestedNamesSucceed (headers : List Cell) (rows : List (List Cell))
    (names : List String)
    (hdup : ¬ names.Nodup) (hrows : rows ≠ [])
    (hex : ∀ c ∈ names, Cell.str c ∈ headers)
    (hgood : ∀ row ∈ rows, goodRow (resolvedIndices headers names) row) :
    ∃ nh nrows, concatenateColumns (headers :: rows) names = Result.ok (nh :: nrows) ∧
      nh.length = headers.length - names.toFinset.card + 1 ∧
      ∀ i, i < rows.length →
        nrows.getD i [] =
          keepUnselected (resolvedIndices headers names) 0 (rows.getD i []) ++
            [Cell.str (String.intercalate " "
              (names.map fun c =>
                ((rows.getD i []).getD (pyIndex headers (Cell.str c)) Cell.null).pyStr))] ∧
        (nrows.getD i []).length = (rows.getD i []).length - names.toFinset.card + 1 := by
  rcases rows with _ | ⟨r, rs⟩
  · exact absurd rfl hrows
  refine ⟨_, _, concat_ok_of_good hex hgood, newHeaders_length hex, ?_⟩
  intro i hi
  refine ⟨mapRowOut_getD_eq hi, ?_⟩
  rw [mapRowOut_getD_eq hi]
  have hmem : (r :: rs).getD i [] ∈ (r :: rs) := by
    rw [List.getD_eq_getElem _ _ hi]
    exact List.getElem_mem hi
  have hb := (hgood _ hmem).1
  rw [List.length_append, List.length_cons, List.length_nil,
    keepUnselected_length_sub hb, resolvedIndices_toFinset_card hex]

theorem duplicateRequestedNamesSucceed_witness :
    ∃ nh nrows,
      concatenateColumns
        [[Cell.str "Name", Cell.str "Age"], [Cell.str "John", Cell.num 30]]
        ["Name", "Name"] = Result.ok (nh :: nrows) ∧
      nh.length = ([Cell.str "Name", Cell.str "Age"] : List Cell).length -
        (["Name", "Name"] : List String).toFinset.card + 1 ∧
      ∀ i, i < ([[Cell.str "John", Cell.num 30]] : List (List Cell)).length →
        nrows.getD i [] =
          keepUnselected
            (resolvedIndices [Cell.str "Name", Cell.str "Age"] ["Name", "Name"]) 0
            ([[Cell.str "John", Cell.num 30]].getD i []) ++
            [Cell.str (String.intercalate " "
              (["Name", "Name"].map fun c =>
                (([[Cell.str "John", Cell.num 30]].getD i []).getD
                  (pyIndex [Cell.str "Name", Cell.str "Age"] (Cell.str c))
                  Cell.null).pyStr))] ∧
        (nrows.getD i []).length =
          ([[Cell.str "John", Cell.num 30]].getD i []).length -
            (["Name", "Name"] : List String).toFinset.card + 1 := by
  exact duplicateRequestedNamesSucceed
    [Cell.str "Name", Cell.str "Age"] [[Cell.str "John", Cell.num 30]]
    ["Name", "Name"] (by decide) (by decide) (by decide) (by decide)

/-- C10: the width check looks only at the resolved indices: a data row
whose length differs from the header length is still accepted as long as
every resolved index is in bounds for it, and the cells of the row at
unresolved indices — including cells beyond the header length — are
carried into the output row unchanged and in their original relative
order (the output row minus its appended last cell is exactly the
index-ordered selection of the unresolved cells). -/
theorem raggedRowsAcceptedUnselectedCellsCarried (headers : List Cell)
    (rows : List (List Cell)) (names : List String)
    (hrows : rows ≠ [])
    (hex : ∀ c ∈ names, Cell.str c ∈ headers)
    (hgood : ∀ row ∈ rows, goodRow (resolvedIndices headers names) row) :
    ∃ nh nrows, concatenateColumns (headers :: rows) names = Result.ok (nh :: nrows) ∧
      ∀ i, i < rows.length → (nrows.getD i []).dropLast =
        keepUnselected (resolvedIndices headers names) 0 (rows.getD i []) := by
  rcases rows with _ | ⟨r, rs⟩
  · exact absurd rfl hrows
  refine ⟨_, _, concat_ok_of_good hex hgood, ?_⟩
  intro i hi
  have hlen : i < ((r :: rs).map (rowOut (resolvedIndices headers names))).length := by
    simpa using hi
  rw [List.getD_eq_getElem _ _ hlen, List.getElem_map, rowOut, List.dropLast_concat,
    enum_filter_eq_keepUnselected]
  congr 1
  exact (List.getD_eq_getElem (r :: rs) [] hi).symm

theorem raggedRowsAcceptedUnselectedCellsCarried_witness :
    ∃ nh nrows,
      concatenateColumns
        [[Cell.str "A", Cell.str "B"],
         [Cell.num 1, Cell.num 2, Cell.num 7, Cell.num 8],
         [Cell.num 3]] ["A"] = Result.ok (nh :: nrows) ∧
      ∀ i, i < ([[Cell.num 1, Cell.num 2, Cell.num 7, Cell.num 8],
          [Cell.num 3]] : List (List Cell)).length →
        (nrows.getD i []).dropLast =
          keepUnselected
            (resolvedIndices [Cell.str "A", Cell.str "B"] ["A"]) 0
            ([[Cell.num 1, Cell.num 2, Cell.num 7, Cell.num 8],
              [Cell.num 3]].getD i []) := by
  exact raggedRowsAcceptedUnselectedCellsCarried
    [Cell.str "A", Cell.str "B"]
    [[Cell.num 1, Cell.num 2, Cell.num 7, Cell.num 8], [Cell.num 3]]
    ["A"] (by decide) (by decide) (by decide)

end ExcelProc
